import Mathlib

/-!
Verification development for the nix-tree dependency-graph browser.

The analytics engine lives in `src/path_stats.rs` and the navigator in
`src/ui/app.rs`; both are embedded below.  The graph store
(`src/store_path.rs`) is not among the provided sources, so its data types
and operations are modelled from the specification (sections 3 and 4.1)
where noted.
-/

namespace NixTree

/-- Modelled from the spec: `store_path.rs` is missing from the sources.
Section 3 of the spec describes an Artifact as a unique path identifier, a
content hash, a display name, an own size in bytes (`nar_size`), an optional
precomputed total-reachable-size hint, an ordered list of outgoing reference
identifiers, and an optional list of signature strings. -/
structure StorePath where
  path : String
  hash : String
  name : String
  nar_size : Nat
  closure_size : Option Nat
  references : List String
  signatures : List String
deriving DecidableEq

/-- Modelled from the spec: `store_path.rs` is missing from the sources.
The Graph Store owns the mapping from identifier to Artifact
(`add_artifact` inserts or overwrites by identifier, so after ingestion the
identifiers of the stored artifacts are pairwise distinct, recorded here as
`nodup_keys`), plus the ordered sequence of roots. -/
structure StorePathGraph where
  paths : List StorePath
  roots : List String
  nodup_keys : (paths.map StorePath.path).Nodup

/-- Modelled from the spec (section 4.1): `get(id) -> Option<Artifact>`,
looking an artifact up by its identifier. -/
def StorePathGraph.get_path (g : StorePathGraph) (p : String) : Option StorePath :=
  g.paths.find? (fun sp => sp.path == p)

/-- Modelled from the spec (section 4.1): `get_referrers(id)` returns the
artifacts whose outgoing references include `id`. -/
def StorePathGraph.get_referrers (g : StorePathGraph) (p : String) : List StorePath :=
  g.paths.filter (fun sp => sp.references.contains p)

/-- Modelled from the spec (section 4.1): `get_references(id)` resolves the
node's outgoing identifiers to artifacts, silently dropping any identifier
not present in the store. -/
def StorePathGraph.get_references (g : StorePathGraph) (p : String) : List StorePath :=
  (match g.get_path p with
   | some sp => sp.references
   | none => []).filterMap (fun r => g.get_path r)

theorem get_path_mem {g : StorePathGraph} {p : String} {sp : StorePath}
    (h : g.get_path p = some sp) : sp ∈ g.paths ∧ sp.path = p := by
  have h1 := List.mem_of_find?_eq_some h
  have h2 := List.find?_some h
  exact ⟨h1, by simpa using h2⟩

theorem find?_key_of_mem_nodup {l : List StorePath} {sp : StorePath}
    (h : sp ∈ l) (hnd : (l.map StorePath.path).Nodup) :
    l.find? (fun x => x.path == sp.path) = some sp := by
  induction l with
  | nil => simp at h
  | cons a l ih =>
    rcases List.mem_cons.mp h with rfl | hmem
    · simp [List.find?]
    · have ha : (a.path == sp.path) = false := by
        simp only [beq_eq_false_iff_ne, ne_eq]
        intro hcontra
        have hm : sp.path ∈ l.map StorePath.path := List.mem_map_of_mem StorePath.path hmem
        rw [← hcontra] at hm
        exact (List.nodup_cons.mp (by simpa using hnd)).1 hm
      have hnd' : (l.map StorePath.path).Nodup :=
        (List.nodup_cons.mp (by simpa using hnd)).2
      simp only [List.find?, ha]
      exact ih hmem hnd'

theorem get_path_of_mem {g : StorePathGraph} {sp : StorePath}
    (h : sp ∈ g.paths) : g.get_path sp.path = some sp :=
  find?_key_of_mem_nodup h g.nodup_keys

/-- Association-list model of Rust's `HashMap<String, _>::get`. -/
def hmLookup {β : Type} (m : List (String × β)) (k : String) : Option β :=
  (m.find? (fun e => e.1 == k)).map Prod.snd

/-- Association-list model of Rust's `HashMap<String, _>::insert` (overwrite
by key). -/
def hmInsert {β : Type} (m : List (String × β)) (k : String) (v : β) : List (String × β) :=
  (k, v) :: m.filter (fun e => !(e.1 == k))

theorem hmLookup_nil {β : Type} (k : String) : hmLookup ([] : List (String × β)) k = none := rfl

theorem find?_filter_ne_key {β : Type} (m : List (String × β)) (k k' : String)
    (h : k' ≠ k) :
    (m.filter (fun e => !(e.1 == k))).find? (fun e => e.1 == k')
      = m.find? (fun e => e.1 == k') := by
  induction m with
  | nil => simp
  | cons e es ih =>
    by_cases he : e.1 = k
    · have h1 : (e.1 == k) = true := by simp [he]
      have h2 : (e.1 == k') = false := by
        simp only [beq_eq_false_iff_ne, ne_eq, he]
        exact fun hc => h hc.symm
      simp only [List.filter, h1, Bool.not_true, List.find?, h2]
      exact ih
    · have h1 : (e.1 == k) = false := by simp [beq_eq_false_iff_ne, he]
      simp only [List.filter, h1, Bool.not_false, List.find?]
      by_cases he' : e.1 = k'
      · have h2 : (e.1 == k') = true := by simp [he']
        simp [h2]
      · have h2 : (e.1 == k') = false := by simp [beq_eq_false_iff_ne, he']
        simp only [h2]
        exact ih

theorem hmLookup_insert {β : Type} (m : List (String × β)) (k k' : String) (v : β) :
    hmLookup (hmInsert m k v) k' = if k' = k then some v else hmLookup m k' := by
  by_cases h : k' = k
  · subst h
    simp [hmLookup, hmInsert, List.find?]
  · have hbeq : (k == k') = false := by
      simp only [beq_eq_false_iff_ne, ne_eq]
      exact fun hc => h hc.symm
    simp only [hmLookup, hmInsert, List.find?, hbeq, if_neg h]
    rw [find?_filter_ne_key m k k' h]

theorem hmLookup_insert_isSome {β : Type} (m : List (String × β)) (k k' : String) (v : β)
    (h : (hmLookup m k').isSome) : (hmLookup (hmInsert m k v) k').isSome := by
  rw [hmLookup_insert]
  by_cases hk : k' = k <;> simp [hk, h]

/-- One reference edge: `a` is present in the store and `b` is among its
outgoing references. -/
def RefStep (g : StorePathGraph) (a b : String) : Prop :=
  ∃ sp, g.get_path a = some sp ∧ b ∈ sp.references

/-- `Reaches g a b`: `b` is reachable from `a` over reference edges
(reflexive-transitive closure of `RefStep`). -/
def Reaches (g : StorePathGraph) : String → String → Prop :=
  Relation.ReflTransGen (RefStep g)

/-- The own size an identifier contributes to a sum: its `nar_size` when the
artifact is present, `0` when absent (the `filter_map(get_path)` pattern in
`path_stats.rs`). -/
def ownSize (g : StorePathGraph) (q : String) : Nat :=
  match g.get_path q with
  | some sp => sp.nar_size
  | none => 0

/-! ## The iterative closure traversal

`fn calculate_closure_set` in `src/path_stats.rs` (lines 108-121): a
stack-based loop (`to_visit`) with an explicit visited set (`closure`):
pop `current`; if newly inserted into `closure` and present in the store,
push its references.  The loop only ever pushes the initial path or
references of stored artifacts, so every stack element lies in a fixed
finite universe; the pair (number of universe elements not yet visited,
stack length) decreases lexicographically at every iteration. -/

/-- The finite universe of identifiers the traversal from `p` can ever push:
`p` itself plus every reference of every stored artifact. -/
def closureUniverse (g : StorePathGraph) (p : String) : List String :=
  p :: g.paths.flatMap StorePath.references

/-- The references an identifier contributes to the stack: its reference
list when the artifact is present, nothing otherwise (the `if let
Some(store_path) = graph.get_path(&current)` guard). -/
def pushRefs (g : StorePathGraph) (current : String) : List String :=
  match g.get_path current with
  | some sp => sp.references
  | none => []

theorem pushRefs_subset_universe (g : StorePathGraph) (U : List String)
    (hU : ∀ sp ∈ g.paths, ∀ r ∈ sp.references, r ∈ U) (current : String) :
    ∀ s ∈ pushRefs g current, s ∈ U := by
  intro s hs
  unfold pushRefs at hs
  cases hg : g.get_path current with
  | some sp =>
    rw [hg] at hs
    exact hU sp (get_path_mem hg).1 s hs
  | none =>
    rw [hg] at hs
    simp at hs

/-- The loop body of `calculate_closure_set` (`while let Some(current) =
to_visit.pop()`), with the invariant that every stack element lies in the
universe `U` carried as a hypothesis for termination.  The model pops from
the front of the list where the Rust `Vec` pops from the back; the
traversal order differs but the computed set (all the code observes) does
not. -/
def closureSetGo (g : StorePathGraph) (U : List String)
    (hU : ∀ sp ∈ g.paths, ∀ r ∈ sp.references, r ∈ U)
    (closure : Finset String) (to_visit : List String)
    (hv : ∀ s ∈ to_visit, s ∈ U) : Finset String :=
  match to_visit with
  | [] => closure
  | current :: rest =>
    if hc : current ∈ closure then
      closureSetGo g U hU closure rest (fun s hs => hv s (List.mem_cons_of_mem _ hs))
    else
      closureSetGo g U hU (insert current closure) (pushRefs g current ++ rest)
        (by
          intro s hs
          rcases List.mem_append.mp hs with h | h
          · exact pushRefs_subset_universe g U hU current s h
          · exact hv s (List.mem_cons_of_mem _ h))
termination_by ((U.toFinset \ closure).card, to_visit.length)
decreasing_by
  · apply Prod.Lex.right
    simp
  · apply Prod.Lex.left
    apply Finset.card_lt_card
    constructor
    · exact Finset.sdiff_subset_sdiff (le_refl _)
        (Finset.subset_insert current closure)
    · intro hsub
      have hcu : current ∈ U.toFinset \ closure := by
        simp only [Finset.mem_sdiff, List.mem_toFinset]
        exact ⟨hv current (List.mem_cons_self current _), hc⟩
      have := hsub hcu
      simp at this

/-- `fn calculate_closure_set(graph, path)` from `src/path_stats.rs`
(lines 108-121): iterative traversal with `closure = {}`,
`to_visit = vec![path]`. -/
def calculate_closure_set (g : StorePathGraph) (path : String) : Finset String :=
  closureSetGo g (closureUniverse g path)
    (fun sp hsp r hr =>
      List.mem_cons_of_mem _ (List.mem_flatMap.mpr ⟨sp, hsp, hr⟩))
    ∅ [path]
    (by
      intro s hs
      simp only [List.mem_singleton] at hs
      subst hs
      exact List.mem_cons_self _ _)

/-- Any set closed under reference edges and containing `x` contains
everything reachable from `x`. -/
theorem reaches_mem_of_closed {g : StorePathGraph} {S : Finset String}
    (hclosed : ∀ x ∈ S, ∀ sp, g.get_path x = some sp → ∀ r ∈ sp.references, r ∈ S)
    {x q : String} (hx : x ∈ S) (hreach : Reaches g x q) : q ∈ S := by
  induction hreach using Relation.ReflTransGen.head_induction_on with
  | refl => exact hx
  | head hstep _ ih =>
    rcases hstep with ⟨sp, hget, hr⟩
    exact ih (hclosed _ hx sp hget _ hr)

theorem mem_pushRefs (g : StorePathGraph) (current r : String) :
    r ∈ pushRefs g current ↔ RefStep g current r := by
  unfold pushRefs RefStep
  cases hg : g.get_path current <;> simp [hg]

theorem subset_closureSetGo (g : StorePathGraph) (U : List String)
    (hU : ∀ sp ∈ g.paths, ∀ r ∈ sp.references, r ∈ U) :
    ∀ closure to_visit hv, closure ⊆ closureSetGo g U hU closure to_visit hv := by
  intro closure to_visit hv
  induction closure, to_visit, hv using closureSetGo.induct g U hU with
  | case1 closure hv _ =>
    rw [closureSetGo]
  | case2 closure current rest hv hc _ ih =>
    rw [closureSetGo]
    simp only [dif_pos hc]
    exact ih
  | case3 closure current rest hv hc _ ih =>
    rw [closureSetGo]
    simp only [dif_neg hc]
    exact (Finset.subset_insert current closure).trans ih

theorem visit_subset_closureSetGo (g : StorePathGraph) (U : List String)
    (hU : ∀ sp ∈ g.paths, ∀ r ∈ sp.references, r ∈ U) :
    ∀ closure to_visit hv, ∀ s ∈ to_visit, s ∈ closureSetGo g U hU closure to_visit hv := by
  intro closure to_visit hv
  induction closure, to_visit, hv using closureSetGo.induct g U hU with
  | case1 closure hv _ =>
    intro s hs
    simp at hs
  | case2 closure current rest hv hc _ ih =>
    intro s hs
    rw [closureSetGo]
    simp only [dif_pos hc]
    rcases List.mem_cons.mp hs with rfl | hs'
    · exact subset_closureSetGo g U hU closure rest _ hc
    · exact ih s hs'
  | case3 closure current rest hv hc _ ih =>
    intro s hs
    rw [closureSetGo]
    simp only [dif_neg hc]
    rcases List.mem_cons.mp hs with rfl | hs'
    · exact subset_closureSetGo g U hU _ _ _ (Finset.mem_insert_self s closure)
    · exact ih s (List.mem_append_right _ hs')

/-- The loop invariant: every reference of a visited artifact is either
already visited or still on the stack. -/
def VisitInvariant (g : StorePathGraph) (closure : Finset String)
    (to_visit : List String) : Prop :=
  ∀ x ∈ closure, ∀ sp, g.get_path x = some sp → ∀ r ∈ sp.references,
    r ∈ closure ∨ r ∈ to_visit

theorem closureSetGo_closed (g : StorePathGraph) (U : List String)
    (hU : ∀ sp ∈ g.paths, ∀ r ∈ sp.references, r ∈ U) :
    ∀ closure to_visit hv, VisitInvariant g closure to_visit →
      ∀ x ∈ closureSetGo g U hU closure to_visit hv, ∀ sp, g.get_path x = some sp →
        ∀ r ∈ sp.references, r ∈ closureSetGo g U hU closure to_visit hv := by
  intro closure to_visit hv
  induction closure, to_visit, hv using closureSetGo.induct g U hU with
  | case1 closure hv _ =>
    intro hinv x hx sp hg r hr
    rw [closureSetGo] at hx ⊢
    rcases hinv x hx sp hg r hr with h | h
    · exact h
    · simp at h
  | case2 closure current rest hv hc _ ih =>
    intro hinv
    rw [closureSetGo]
    simp only [dif_pos hc]
    apply ih
    intro x hx sp hg r hr
    rcases hinv x hx sp hg r hr with h | h
    · exact Or.inl h
    · rcases List.mem_cons.mp h with rfl | h'
      · exact Or.inl hc
      · exact Or.inr h'
  | case3 closure current rest hv hc _ ih =>
    intro hinv
    rw [closureSetGo]
    simp only [dif_neg hc]
    apply ih
    intro x hx sp' hg' r hr
    rcases Finset.mem_insert.mp hx with rfl | hx'
    · refine Or.inr (List.mem_append_left _ ?_)
      exact (mem_pushRefs g x r).mpr ⟨sp', hg', hr⟩
    · rcases hinv x hx' sp' hg' r hr with h | h
      · exact Or.inl (Finset.mem_insert_of_mem h)
      · rcases List.mem_cons.mp h with rfl | h'
        · exact Or.inl (Finset.mem_insert_self r closure)
        · exact Or.inr (List.mem_append_right _ h')

theorem mem_closureSetGo_sound (g : StorePathGraph) (U : List String)
    (hU : ∀ sp ∈ g.paths, ∀ r ∈ sp.references, r ∈ U) :
    ∀ closure to_visit hv, ∀ q ∈ closureSetGo g U hU closure to_visit hv,
      q ∈ closure ∨ ∃ t ∈ to_visit, Reaches g t q := by
  intro closure to_visit hv
  induction closure, to_visit, hv using closureSetGo.induct g U hU with
  | case1 closure hv _ =>
    intro q hq
    rw [closureSetGo] at hq
    exact Or.inl hq
  | case2 closure current rest hv hc _ ih =>
    intro q hq
    rw [closureSetGo] at hq
    simp only [dif_pos hc] at hq
    rcases ih q hq with h | ⟨t, ht, hreach⟩
    · exact Or.inl h
    · exact Or.inr ⟨t, List.mem_cons_of_mem _ ht, hreach⟩
  | case3 closure current rest hv hc _ ih =>
    intro q hq
    rw [closureSetGo] at hq
    simp only [dif_neg hc] at hq
    rcases ih q hq with h | ⟨t, ht, hreach⟩
    · rcases Finset.mem_insert.mp h with rfl | h'
      · exact Or.inr ⟨q, List.mem_cons_self _ _, Relation.ReflTransGen.refl⟩
      · exact Or.inl h'
    · rcases List.mem_append.mp ht with h' | h'
      · exact Or.inr ⟨current, List.mem_cons_self _ _,
          Relation.ReflTransGen.head ((mem_pushRefs g current t).mp h') hreach⟩
      · exact Or.inr ⟨t, List.mem_cons_of_mem _ h', hreach⟩

theorem calculate_closure_set_closed (g : StorePathGraph) (path : String) :
    ∀ x ∈ calculate_closure_set g path, ∀ sp, g.get_path x = some sp →
      ∀ r ∈ sp.references, r ∈ calculate_closure_set g path := by
  unfold calculate_closure_set
  apply closureSetGo_closed
  intro x hx
  simp at hx

theorem self_mem_calculate_closure_set (g : StorePathGraph) (path : String) :
    path ∈ calculate_closure_set g path :=
  visit_subset_closureSetGo g _ _ _ _ _ path (List.mem_cons_self _ _)

/-- `calculate_closure_set` computes exactly the set of identifiers reachable
from `path` over reference edges. -/
theorem mem_calculate_closure_set (g : StorePathGraph) (path q : String) :
    q ∈ calculate_closure_set g path ↔ Reaches g path q := by
  constructor
  · intro hq
    rcases mem_closureSetGo_sound g _ _ _ _ _ q hq with h | ⟨t, ht, hreach⟩
    · simp at h
    · simp only [List.mem_singleton] at ht
      subst ht
      exact hreach
  · intro hreach
    exact reaches_mem_of_closed (calculate_closure_set_closed g path)
      (self_mem_calculate_closure_set g path) hreach

/-! ## The memoized recursive closure

`fn calculate_closure` in `src/path_stats.rs` (lines 44-65): check the
cache; otherwise start from `{path}`, recurse into every reference
extending the closure, and only then insert the result into the cache.
The Rust recursion has no explicit bound; the embedding makes the call
stack explicit with a fuel parameter, `none` modelling a recursion deeper
than any given bound (for a cyclic graph no fuel suffices, because the
cache is only written after all recursive calls return). -/

abbrev ClosureCache := List (String × Finset String)

mutual

def calculate_closure (g : StorePathGraph) : Nat → String → ClosureCache →
    Option (Finset String × ClosureCache)
  | 0, _, _ => none
  | fuel+1, path, cache =>
    match hmLookup cache path with
    | some cached => some (cached, cache)
    | none =>
      match closureFold g fuel (pushRefs g path) {path} cache with
      | none => none
      | some (closure, cache1) => some (closure, hmInsert cache1 path closure)
termination_by fuel _ _ => (fuel, 0)

def closureFold (g : StorePathGraph) : Nat → List String → Finset String →
    ClosureCache → Option (Finset String × ClosureCache)
  | _, [], closure, cache => some (closure, cache)
  | fuel, r :: rs, closure, cache =>
    match calculate_closure g fuel r cache with
    | none => none
    | some (rc, cache') => closureFold g fuel rs (closure ∪ rc) cache'
termination_by fuel rs _ _ => (fuel, rs.length + 1)

end

/-- The correctness invariant for the memoization cache: every entry is
exactly the reachable set of its key. -/
def CacheOK (g : StorePathGraph) (cache : ClosureCache) : Prop :=
  ∀ p S, hmLookup cache p = some S → ∀ q, q ∈ S ↔ Reaches g p q

theorem reaches_iff_head (g : StorePathGraph) (p q : String) :
    Reaches g p q ↔ q = p ∨ ∃ r ∈ pushRefs g p, Reaches g r q := by
  constructor
  · intro h
    rcases Relation.ReflTransGen.cases_head h with h | ⟨c, hstep, hrest⟩
    · exact Or.inl h.symm
    · exact Or.inr ⟨c, (mem_pushRefs g p c).mpr hstep, hrest⟩
  · rintro (rfl | ⟨r, hr, hreach⟩)
    · exact Relation.ReflTransGen.refl
    · exact Relation.ReflTransGen.head ((mem_pushRefs g p r).mp hr) hreach

/-- Specification of `calculate_closure` at a given fuel. -/
def ClosureSpecAt (g : StorePathGraph) (fuel : Nat) : Prop :=
  ∀ path cache S cache', CacheOK g cache →
    calculate_closure g fuel path cache = some (S, cache') →
    (∀ q, q ∈ S ↔ Reaches g path q) ∧ CacheOK g cache'

theorem closureFold_spec (g : StorePathGraph) (fuel : Nat)
    (hP : ClosureSpecAt g fuel) :
    ∀ rs closure cache S cache', CacheOK g cache →
      closureFold g fuel rs closure cache = some (S, cache') →
      (∀ q, q ∈ S ↔ q ∈ closure ∨ ∃ r ∈ rs, Reaches g r q) ∧ CacheOK g cache' := by
  intro rs
  induction rs with
  | nil =>
    intro closure cache S cache' hok heq
    rw [closureFold] at heq
    injection heq with heq
    injection heq with h1 h2
    subst h1
    subst h2
    exact ⟨by simp, hok⟩
  | cons r rs ih =>
    intro closure cache S cache' hok heq
    rw [closureFold] at heq
    cases hcall : calculate_closure g fuel r cache with
    | none =>
      rw [hcall] at heq
      simp at heq
    | some res =>
      rw [hcall] at heq
      obtain ⟨rc, cacheMid⟩ := res
      simp only at heq
      obtain ⟨hrc, hokMid⟩ := hP r cache rc cacheMid hok hcall
      obtain ⟨hS, hok'⟩ := ih (closure ∪ rc) cacheMid S cache' hokMid heq
      refine ⟨?_, hok'⟩
      intro q
      rw [hS q]
      simp only [Finset.mem_union, hrc q, List.mem_cons]
      constructor
      · rintro (⟨h | h⟩ | ⟨t, ht, hreach⟩)
        · exact Or.inl h
        · exact Or.inr ⟨r, Or.inl rfl, h⟩
        · exact Or.inr ⟨t, Or.inr ht, hreach⟩
      · rintro (h | ⟨t, rfl | ht, hreach⟩)
        · exact Or.inl (Or.inl h)
        · exact Or.inl (Or.inr hreach)
        · exact Or.inr ⟨t, ht, hreach⟩

theorem calculate_closure_spec (g : StorePathGraph) :
    ∀ fuel, ClosureSpecAt g fuel := by
  intro fuel
  induction fuel with
  | zero =>
    intro path cache S cache' _ heq
    rw [calculate_closure] at heq
    simp at heq
  | succ fuel ih =>
    intro path cache S cache' hok heq
    rw [calculate_closure] at heq
    cases hlook : hmLookup cache path with
    | some cached =>
      rw [hlook] at heq
      injection heq with heq
      injection heq with h1 h2
      subst h1
      subst h2
      exact ⟨hok path cached hlook, hok⟩
    | none =>
      rw [hlook] at heq
      cases hfold : closureFold g fuel (pushRefs g path) {path} cache with
      | none =>
        rw [hfold] at heq
        simp at heq
      | some res =>
        rw [hfold] at heq
        obtain ⟨closure, cache1⟩ := res
        simp only at heq
        injection heq with heq
        injection heq with h1 h2
        subst h1
        subst h2
        obtain ⟨hcl, hok1⟩ := closureFold_spec g fuel ih (pushRefs g path)
          {path} cache closure cache1 hok hfold
        have hchar : ∀ q, q ∈ closure ↔ Reaches g path q := by
          intro q
          rw [hcl q, reaches_iff_head g path q]
          simp
        refine ⟨hchar, ?_⟩
        intro p' S' hlook' q
        rw [hmLookup_insert] at hlook'
        by_cases hp : p' = path
        · rw [if_pos hp] at hlook'
          injection hlook' with h
          subst h
          subst hp
          exact hchar q
        · rw [if_neg hp] at hlook'
          exact hok1 p' S' hlook' q

/-! ## The stats pipeline

`pub struct PathStats` and `pub fn calculate_stats` from
`src/path_stats.rs` (lines 4-42), with `fn calculate_added_sizes`
(lines 67-106). -/

structure PathStats where
  closure_size : Nat
  added_size : Nat
  immediate_parents : List String
deriving DecidableEq

abbrev StatsMap := List (String × PathStats)

/-- The first loop of `calculate_stats` (lines 15-37): for every stored path,
compute its closure via the memoized recursion, sum the own sizes of its
members, record the referrers, and insert a stats entry with
`added_size: 0`.  The closure cache is threaded through the loop
(`closure_cache` in the source); `none` models non-returning recursion. -/
def statsBaseGo (g : StorePathGraph) (fuel : Nat) :
    List StorePath → StatsMap → ClosureCache → Option StatsMap
  | [], stats, _ => some stats
  | sp :: rest, stats, cache =>
    match calculate_closure g fuel sp.path cache with
    | none => none
    | some (closure, cache') =>
      let closure_size := closure.sum (ownSize g)
      let immediate_parents := (g.get_referrers sp.path).map StorePath.path
      statsBaseGo g fuel rest
        (hmInsert stats sp.path
          { closure_size := closure_size, added_size := 0,
            immediate_parents := immediate_parents }) cache'

/-- `calculate_stats` before `calculate_added_sizes` runs (lines 12-37). -/
def calculate_stats_base (g : StorePathGraph) (fuel : Nat) : Option StatsMap :=
  statsBaseGo g fuel g.paths [] []

/-- The `unique_closure` set of `calculate_added_sizes` (lines 69-77): the
path itself plus the full closure of every reference that has a stats
entry. -/
def uniqueClosure (g : StorePathGraph) (stats : StatsMap) (sp : StorePath) :
    Finset String :=
  sp.references.foldl
    (fun acc r =>
      if (hmLookup stats r).isSome then acc ∪ calculate_closure_set g r else acc)
    {sp.path}

/-- The `shared_with_siblings` set of `calculate_added_sizes` (lines 79-89):
for every immediate parent present in the store, the full closures of the
parent's references other than the path itself. -/
def sharedWithSiblings (g : StorePathGraph) (sp : StorePath)
    (immediate_parents : List String) : Finset String :=
  immediate_parents.foldl
    (fun acc parent =>
      match g.get_path parent with
      | some parent_path =>
        parent_path.references.foldl
          (fun acc2 sibling_ref =>
            if sibling_ref ≠ sp.path then acc2 ∪ calculate_closure_set g sibling_ref
            else acc2)
          acc
      | none => acc)
    ∅

/-- The loop of `calculate_added_sizes` (lines 68-105).  The direct lookup
`stats.get(&path.path).unwrap()` is modelled by the `none` result (a panic
in Rust); on success the entry's `added_size` is overwritten with the size
of `unique_closure - shared_with_siblings`. -/
def addedSizesGo (g : StorePathGraph) : List StorePath → StatsMap → Option StatsMap
  | [], stats => some stats
  | sp :: rest, stats =>
    let unique_closure := uniqueClosure g stats sp
    match hmLookup stats sp.path with
    | none => none
    | some st =>
      let shared := sharedWithSiblings g sp st.immediate_parents
      let unique_to_path := unique_closure \ shared
      let added_size := unique_to_path.sum (ownSize g)
      addedSizesGo g rest
        (hmInsert stats sp.path
          { closure_size := st.closure_size, added_size := added_size,
            immediate_parents := st.immediate_parents })

/-- `fn calculate_added_sizes(stats, graph)` (lines 67-106). -/
def calculate_added_sizes (stats : StatsMap) (g : StorePathGraph) : Option StatsMap :=
  addedSizesGo g g.paths stats

/-- `pub fn calculate_stats(graph)` (lines 11-42): the base pass followed by
`calculate_added_sizes`. -/
def calculate_stats (g : StorePathGraph) (fuel : Nat) : Option StatsMap :=
  match calculate_stats_base g fuel with
  | none => none
  | some stats => calculate_added_sizes stats g

/-- The canonical closure-size of an identifier: the sum of own sizes over
its reachable set (represented by `calculate_closure_set`). -/
def reachSum (g : StorePathGraph) (p : String) : Nat :=
  (calculate_closure_set g p).sum (ownSize g)

theorem closure_eq_closure_set {g : StorePathGraph} {p : String} {S : Finset String}
    (h : ∀ q, q ∈ S ↔ Reaches g p q) : S = calculate_closure_set g p :=
  Finset.ext fun q => (h q).trans (mem_calculate_closure_set g p q).symm

theorem statsBaseGo_lookup (g : StorePathGraph) (fuel : Nat) :
    ∀ l stats cache out, CacheOK g cache →
      statsBaseGo g fuel l stats cache = some out →
      ∀ p st, hmLookup out p = some st →
        hmLookup stats p = some st ∨
          (st.closure_size = reachSum g p ∧ st.added_size = 0 ∧
            st.immediate_parents = (g.get_referrers p).map StorePath.path) := by
  intro l
  induction l with
  | nil =>
    intro stats cache out _ heq p st hlook
    rw [statsBaseGo] at heq
    injection heq with heq
    subst heq
    exact Or.inl hlook
  | cons sp rest ih =>
    intro stats cache out hok heq p st hlook
    rw [statsBaseGo] at heq
    cases hcall : calculate_closure g fuel sp.path cache with
    | none =>
      rw [hcall] at heq
      simp at heq
    | some res =>
      rw [hcall] at heq
      obtain ⟨closure, cache'⟩ := res
      simp only at heq
      obtain ⟨hchar, hok'⟩ := calculate_closure_spec g fuel sp.path cache
        closure cache' hok hcall
      rcases ih _ _ _ hok' heq p st hlook with h | h
      · rw [hmLookup_insert] at h
        by_cases hp : p = sp.path
        · rw [if_pos hp] at h
          injection h with h
          subst h
          refine Or.inr ⟨?_, rfl, by rw [hp]⟩
          subst hp
          simp only [reachSum]
          rw [closure_eq_closure_set hchar]
        · rw [if_neg hp] at h
          exact Or.inl h
      · exact Or.inr h

theorem statsBaseGo_keys (g : StorePathGraph) (fuel : Nat) :
    ∀ l stats cache out, statsBaseGo g fuel l stats cache = some out →
      ∀ p, (hmLookup out p).isSome ↔
        ((hmLookup stats p).isSome ∨ p ∈ l.map StorePath.path) := by
  intro l
  induction l with
  | nil =>
    intro stats cache out heq p
    rw [statsBaseGo] at heq
    injection heq with heq
    subst heq
    simp
  | cons sp rest ih =>
    intro stats cache out heq p
    rw [statsBaseGo] at heq
    cases hcall : calculate_closure g fuel sp.path cache with
    | none =>
      rw [hcall] at heq
      simp at heq
    | some res =>
      rw [hcall] at heq
      obtain ⟨closure, cache'⟩ := res
      simp only at heq
      rw [ih _ _ _ heq p, hmLookup_insert]
      by_cases hp : p = sp.path
      · simp [hp]
      · simp [hp]

theorem addedSizesGo_isSome (g : StorePathGraph) :
    ∀ l stats, (∀ sp ∈ l, (hmLookup stats sp.path).isSome) →
      (addedSizesGo g l stats).isSome := by
  intro l
  induction l with
  | nil =>
    intro stats _
    rw [addedSizesGo]
    simp
  | cons sp rest ih =>
    intro stats hkeys
    rw [addedSizesGo]
    cases hlook : hmLookup stats sp.path with
    | none =>
      have := hkeys sp (List.mem_cons_self _ _)
      rw [hlook] at this
      simp at this
    | some st =>
      simp only
      apply ih
      intro sp' hsp'
      exact hmLookup_insert_isSome _ _ _ _ (hkeys sp' (List.mem_cons_of_mem _ hsp'))

theorem addedSizesGo_lookup (g : StorePathGraph) :
    ∀ l stats out, addedSizesGo g l stats = some out →
      ∀ p st, hmLookup out p = some st →
        ∃ st0, hmLookup stats p = some st0 ∧
          st.closure_size = st0.closure_size ∧
          st.immediate_parents = st0.immediate_parents := by
  intro l
  induction l with
  | nil =>
    intro stats out heq p st hlook
    rw [addedSizesGo] at heq
    injection heq with heq
    subst heq
    exact ⟨st, hlook, rfl, rfl⟩
  | cons sp rest ih =>
    intro stats out heq p st hlook
    rw [addedSizesGo] at heq
    cases hsp : hmLookup stats sp.path with
    | none =>
      rw [hsp] at heq
      simp at heq
    | some st0 =>
      rw [hsp] at heq
      simp only at heq
      obtain ⟨st1, hst1, hcs, hip⟩ := ih _ _ heq p st hlook
      rw [hmLookup_insert] at hst1
      by_cases hp : p = sp.path
      · rw [if_pos hp] at hst1
        injection hst1 with hst1
        subst hst1
        subst hp
        exact ⟨st0, hsp, hcs, hip⟩
      · rw [if_neg hp] at hst1
        exact ⟨st1, hst1, hcs, hip⟩

theorem reaches_trans_ref {g : StorePathGraph} {sp : StorePath}
    (hg : g.get_path sp.path = some sp) {r : String} (hr : r ∈ sp.references) :
    ∀ x, Reaches g r x → Reaches g sp.path x := fun _ hreach =>
  Relation.ReflTransGen.head ⟨sp, hg, hr⟩ hreach

theorem uniqueClosure_subset (g : StorePathGraph) (stats : StatsMap)
    (sp : StorePath) (hg : g.get_path sp.path = some sp) :
    uniqueClosure g stats sp ⊆ calculate_closure_set g sp.path := by
  unfold uniqueClosure
  have hgen : ∀ (rs : List String) (acc : Finset String),
      acc ⊆ calculate_closure_set g sp.path →
      (∀ r ∈ rs, calculate_closure_set g r ⊆ calculate_closure_set g sp.path) →
      rs.foldl
        (fun acc r =>
          if (hmLookup stats r).isSome then acc ∪ calculate_closure_set g r else acc)
        acc ⊆ calculate_closure_set g sp.path := by
    intro rs
    induction rs with
    | nil =>
      intro acc hacc _
      simpa using hacc
    | cons r rs ihr =>
      intro acc hacc hrs
      simp only [List.foldl]
      by_cases hcond : (hmLookup stats r).isSome
      · rw [if_pos hcond]
        exact ihr _ (Finset.union_subset hacc (hrs r (List.mem_cons_self _ _)))
          (fun r' hr' => hrs r' (List.mem_cons_of_mem _ hr'))
      · rw [if_neg hcond]
        exact ihr _ hacc (fun r' hr' => hrs r' (List.mem_cons_of_mem _ hr'))
  apply hgen
  · intro x hx
    simp only [Finset.mem_singleton] at hx
    subst hx
    exact self_mem_calculate_closure_set g sp.path
  · intro r hr x hx
    rw [mem_calculate_closure_set] at hx ⊢
    exact reaches_trans_ref hg hr x hx

theorem addedSizesGo_bound (g : StorePathGraph) :
    ∀ l stats out,
      (∀ sp ∈ l, g.get_path sp.path = some sp) →
      (∀ p st, hmLookup stats p = some st → st.closure_size = reachSum g p) →
      (∀ p st, hmLookup stats p = some st → st.added_size ≤ st.closure_size) →
      addedSizesGo g l stats = some out →
      ∀ p st, hmLookup out p = some st → st.added_size ≤ st.closure_size := by
  intro l
  induction l with
  | nil =>
    intro stats out _ _ hB heq p st hlook
    rw [addedSizesGo] at heq
    injection heq with heq
    subst heq
    exact hB p st hlook
  | cons sp rest ih =>
    intro stats out hG hA hB heq p st hlook
    rw [addedSizesGo] at heq
    cases hsp : hmLookup stats sp.path with
    | none =>
      rw [hsp] at heq
      simp at heq
    | some st0 =>
      rw [hsp] at heq
      simp only at heq
      have hgsp : g.get_path sp.path = some sp := hG sp (List.mem_cons_self _ _)
      have hadded : (uniqueClosure g stats sp \
          sharedWithSiblings g sp st0.immediate_parents).sum (ownSize g)
            ≤ st0.closure_size := by
        rw [hA sp.path st0 hsp]
        unfold reachSum
        exact Finset.sum_le_sum_of_subset
          ((Finset.sdiff_subset).trans (uniqueClosure_subset g stats sp hgsp))
      refine ih _ _ (fun sp' hsp' => hG sp' (List.mem_cons_of_mem _ hsp')) ?_ ?_ heq p st hlook
      · intro p' st' hlook'
        rw [hmLookup_insert] at hlook'
        by_cases hp : p' = sp.path
        · rw [if_pos hp] at hlook'
          injection hlook' with hlook'
          subst hlook'
          simp only
          rw [hp]
          exact hA sp.path st0 hsp
        · rw [if_neg hp] at hlook'
          exact hA p' st' hlook'
      · intro p' st' hlook'
        rw [hmLookup_insert] at hlook'
        by_cases hp : p' = sp.path
        · rw [if_pos hp] at hlook'
          injection hlook' with hlook'
          subst hlook'
          simpa using hadded
        · rw [if_neg hp] at hlook'
          exact hB p' st' hlook'

/-- Every entry of the base pass records the reachable-set size sum. -/
theorem calculate_stats_base_closure_size (g : StorePathGraph) (fuel : Nat)
    (stats : StatsMap) (h : calculate_stats_base g fuel = some stats) :
    ∀ p st, hmLookup stats p = some st →
      st.closure_size = reachSum g p ∧ st.added_size = 0 ∧
        st.immediate_parents = (g.get_referrers p).map StorePath.path := by
  intro p st hlook
  rcases statsBaseGo_lookup g fuel g.paths [] [] stats
    (by intro p' S h'; rw [hmLookup_nil] at h'; exact absurd h' (by simp))
    h p st hlook with h' | h'
  · rw [hmLookup_nil] at h'
    exact absurd h' (by simp)
  · exact h'

/-- The key set of the base pass is exactly the graph's path set. -/
theorem calculate_stats_base_keys (g : StorePathGraph) (fuel : Nat)
    (stats : StatsMap) (h : calculate_stats_base g fuel = some stats) :
    ∀ p, (hmLookup stats p).isSome ↔ p ∈ g.paths.map StorePath.path := by
  intro p
  rw [statsBaseGo_keys g fuel g.paths [] [] stats h p, hmLookup_nil]
  simp

/-! ## Sort orders and `sort_paths` (`src/path_stats.rs` lines 123-167) -/

inductive SortOrder
  | Alphabetical
  | ClosureSize
  | AddedSize
deriving DecidableEq

def SortOrder.next : SortOrder → SortOrder
  | .Alphabetical => .ClosureSize
  | .ClosureSize => .AddedSize
  | .AddedSize => .Alphabetical

/-- `stats.get(a).map(|s| s.closure_size).unwrap_or(0)`. -/
def statClosureSize (stats : StatsMap) (p : String) : Nat :=
  match hmLookup stats p with
  | some st => st.closure_size
  | none => 0

/-- `stats.get(a).map(|s| s.added_size).unwrap_or(0)`. -/
def statAddedSize (stats : StatsMap) (p : String) : Nat :=
  match hmLookup stats p with
  | some st => st.added_size
  | none => 0

/-- The comparator of `sort_paths` as a boolean "keeps `a` at or before `b`"
relation: lexicographic by identifier for `Alphabetical`, descending by the
respective stat (missing entries as zero) for the size orders. -/
def sortLE (stats : StatsMap) (order : SortOrder) (a b : String) : Bool :=
  match order with
  | .Alphabetical => decide (a ≤ b)
  | .ClosureSize => decide (statClosureSize stats b ≤ statClosureSize stats a)
  | .AddedSize => decide (statAddedSize stats b ≤ statAddedSize stats a)

/-- `pub fn sort_paths(paths, stats, order)` (lines 148-167): a stable sort
by the comparator (Rust's `sort_by` is stable; modelled with `mergeSort`). -/
def sort_paths (paths : List String) (stats : StatsMap) (order : SortOrder) :
    List String :=
  paths.mergeSort (sortLE stats order)

/-! ## The navigator (`src/ui/app.rs`)

`ListState` is modelled by its selection (`Option Nat`); the Rust `String`
search buffer with its `push`/`pop` of characters is a `List Char`. -/

inductive Pane
  | Previous
  | Current
  | Next
deriving DecidableEq

def Pane.previous : Pane → Pane
  | .Previous => .Previous
  | .Current => .Previous
  | .Next => .Current

inductive KeyCode
  | Char (c : Char)
  | Esc
  | Enter
  | Backspace
  | Down
  | Up
  | Left
  | Right
  | Other
deriving DecidableEq

structure App where
  graph : StorePathGraph
  stats : StatsMap
  sort_order : SortOrder
  active_pane : Pane
  show_help : Bool
  searching : Bool
  search_query : List Char
  previous_state : Option Nat
  current_state : Option Nat
  next_state : Option Nat
  previous_items : List String
  current_items : List String
  next_items : List String
  current_path : Option String

/-- `fn update_panes` (lines 176-223): read the selected identifier of the
active pane; record it as `current_path`; when the active pane is the
Current pane, rebuild the side panes from the stats table and the graph and
reset both side-pane `ListState`s to default (no selection). -/
def App.update_panes (a : App) : App :=
  let selected_path :=
    match a.active_pane with
    | .Previous => a.previous_state.bind (fun i => a.previous_items[i]?)
    | .Current => a.current_state.bind (fun i => a.current_items[i]?)
    | .Next => a.next_state.bind (fun i => a.next_items[i]?)
  match selected_path with
  | none => a
  | some path =>
    let a1 := { a with current_path := some path }
    if a1.active_pane = Pane.Current then
      let prev_items := sort_paths
        (match hmLookup a1.stats path with
         | some st => st.immediate_parents
         | none => []) a1.stats a1.sort_order
      let refs := sort_paths ((a1.graph.get_references path).map StorePath.path)
        a1.stats a1.sort_order
      { a1 with previous_items := prev_items, next_items := refs,
                previous_state := none, next_state := none }
    else a1

/-- `App::new` (lines 47-74): start in the Current pane with the sorted
roots as `current_items`, selecting index 0 and populating the panes when
non-empty. -/
def App.new (graph : StorePathGraph) (stats : StatsMap) : App :=
  let app : App :=
    { graph := graph, stats := stats, sort_order := .Alphabetical,
      active_pane := .Current, show_help := false, searching := false,
      search_query := [], previous_state := none, current_state := none,
      next_state := none, previous_items := [], current_items := [],
      next_items := [], current_path := none }
  let app := { app with
    current_items := sort_paths app.graph.roots app.stats app.sort_order }
  if app.current_items ≠ [] then
    ({ app with current_state := some 0 }).update_panes
  else app

/-- The items of the active pane (the first `match` of `move_down`). -/
def App.paneItems (a : App) : List String :=
  match a.active_pane with
  | .Previous => a.previous_items
  | .Current => a.current_items
  | .Next => a.next_items

/-- The selection of the active pane's `ListState`. -/
def App.paneState (a : App) : Option Nat :=
  match a.active_pane with
  | .Previous => a.previous_state
  | .Current => a.current_state
  | .Next => a.next_state

/-- Write the active pane's `ListState` selection. -/
def App.setPaneState (a : App) (s : Option Nat) : App :=
  match a.active_pane with
  | .Previous => { a with previous_state := s }
  | .Current => { a with current_state := s }
  | .Next => { a with next_state := s }

/-- `fn move_down` (lines 119-140). -/
def App.move_down (a : App) : App :=
  if a.paneItems ≠ [] then
    let i :=
      match a.paneState with
      | some i => min (i + 1) (a.paneItems.length - 1)
      | none => 0
    (a.setPaneState (some i)).update_panes
  else a

/-- `fn move_up` (lines 142-155). -/
def App.move_up (a : App) : App :=
  match a.paneState with
  | some i => if i > 0 then (a.setPaneState (some (i - 1))).update_panes else a
  | none => a

/-- `fn move_left` (lines 157-161): shift the focused pane one step towards
Previous.  (No history stack exists; this only moves focus.) -/
def App.move_left (a : App) : App :=
  if a.active_pane ≠ Pane.Previous then
    { a with active_pane := a.active_pane.previous }
  else a

/-- `fn move_right` (lines 163-174): from the Current pane with a selection
and non-empty `next_items`, focus the Next pane (selecting its index 0 if
unselected); from the Previous pane with a selection, focus the Current
pane.  (No history stack exists; `current_items` is never modified.) -/
def App.move_right (a : App) : App :=
  if a.active_pane = Pane.Current ∧ a.current_state.isSome = true then
    (if a.next_items ≠ [] then
      let a1 := { a with active_pane := Pane.Next }
      if a1.next_state.isNone = true then { a1 with next_state := some 0 } else a1
    else a)
  else if a.active_pane = Pane.Previous ∧ a.previous_state.isSome = true then
    { a with active_pane := Pane.Current }
  else a

/-- `fn resort_current_pane` (lines 225-229). -/
def App.resort_current_pane (a : App) : App :=
  { a with current_items := sort_paths a.current_items a.stats a.sort_order,
           previous_items := sort_paths a.previous_items a.stats a.sort_order,
           next_items := sort_paths a.next_items a.stats a.sort_order }

/-- The `matching_paths` of `fn perform_search` (lines 236-243): identifiers
of all graph artifacts whose lowercased display name contains the
lowercased query as a substring (`to_lowercase` modelled per character by
`Char.toLower`; they agree on ASCII). -/
def App.searchMatches (a : App) : List String :=
  let query := a.search_query.map Char.toLower
  (a.graph.paths.filter
    (fun p => decide (query <:+: p.name.toList.map Char.toLower))).map StorePath.path

/-- `fn perform_search` (lines 231-252): no-op for an empty buffer;
otherwise on a non-empty match set, replace `current_items` by the sorted
matches, select index 0, focus the Current pane and refresh; on an empty
match set do nothing. -/
def App.perform_search (a : App) : App :=
  if a.search_query = [] then a
  else
    let matching_paths := a.searchMatches
    if matching_paths ≠ [] then
      let a1 := { a with
        current_items := sort_paths matching_paths a.stats a.sort_order,
        current_state := some 0, active_pane := Pane.Current }
      a1.update_panes
    else a

/-- The Searching-state block of `handle_key` (lines 77-96): Esc cancels,
Enter submits, Backspace pops, any character is appended to the buffer;
every branch returns `Ok(false)`. -/
def App.handle_search_key (a : App) (key : KeyCode) : App :=
  match key with
  | .Esc => { a with searching := false, search_query := [] }
  | .Enter => ({ a with searching := false }).perform_search
  | .Backspace => { a with search_query := a.search_query.dropLast }
  | .Char c => { a with search_query := a.search_query ++ [c] }
  | _ => a

/-- The non-modal block of `handle_key` (lines 98-116): `q`/Esc quits, `?`
toggles help, `/` enters search, `s` cycles the sort order, and the
arrow/vi keys move. -/
def App.handle_browse_key (a : App) (key : KeyCode) : App × Bool :=
  match key with
  | .Char 'q' | .Esc => (a, true)
  | .Char '?' => ({ a with show_help := !a.show_help }, false)
  | .Char '/' => ({ a with searching := true, search_query := [] }, false)
  | .Char 's' => (({ a with sort_order := a.sort_order.next }).resort_current_pane, false)
  | .Down | .Char 'j' => (a.move_down, false)
  | .Up | .Char 'k' => (a.move_up, false)
  | .Left | .Char 'h' => (a.move_left, false)
  | .Right | .Char 'l' | .Enter => (a.move_right, false)
  | _ => (a, false)

/-- `pub fn handle_key` (lines 76-117): `true` means quit; the Searching
block takes priority and never quits. -/
def App.handle_key (a : App) (key : KeyCode) : App × Bool :=
  if a.searching = true then (a.handle_search_key key, false)
  else a.handle_browse_key key

/-! ## Concrete fixtures -/

def pathR : String := "R"
def pathA : String := "A"
def pathB : String := "B"
def pathC : String := "C"

/-- The spec's test scenario (section 8): root R referencing A and B, each of
which references C, with own sizes 10, 20, 15 and 5 bytes. -/
def spR : StorePath := ⟨pathR, "hR", "nR", 10, none, [pathA, pathB], []⟩

def spA : StorePath := ⟨pathA, "hA", "nA", 20, none, [pathC], []⟩

def spB : StorePath := ⟨pathB, "hB", "nB", 15, none, [pathC], []⟩

def spC : StorePath := ⟨pathC, "hC", "nC", 5, none, [], []⟩

def scenarioGraph : StorePathGraph :=
  ⟨[spR, spA, spB, spC], [pathR], by decide⟩

def pathX : String := "X"

/-- A malformed cyclic input: one artifact that references itself. -/
def spLoop : StorePath := ⟨pathX, "hX", "nX", 1, none, [pathX], []⟩

def cycleGraph : StorePathGraph := ⟨[spLoop], [pathX], by decide⟩

def pathN : String := "N"

/-- A one-node graph (display name "alpha", size 7, no references). -/
def spN : StorePath := ⟨pathN, "hN", "alpha", 7, none, [], []⟩

def oneNodeGraph : StorePathGraph := ⟨[spN], [pathN], by decide⟩

/-! ## Claim theorems -/

/-- C2 (counterexample): in the spec's scenario the computed `added_size` of
C is not 0.  C's immediate parents are A and B, whose only reference is C
itself, so the sibling set is empty and nothing is subtracted from C's
closure. -/
theorem C2_scenario_added_C_counterexample :
    ¬ (calculate_stats scenarioGraph 5).bind
        (fun s => (hmLookup s pathC).map PathStats.added_size) = some 0 := by
  simp [calculate_stats, calculate_stats_base, statsBaseGo, calculate_added_sizes,
    addedSizesGo, calculate_closure, closureFold, uniqueClosure, sharedWithSiblings,
    calculate_closure_set, closureSetGo, pushRefs, closureUniverse,
    hmLookup, hmInsert, StorePathGraph.get_path, StorePathGraph.get_referrers,
    ownSize, scenarioGraph, spR, spA, spB, spC, pathR, pathA, pathB, pathC,
    List.find?, List.filter, Finset.sum]

/-- C2 (amended): in the scenario graph (R referencing A and B, A and B each
referencing C, own sizes 10, 20, 15, 5), the computed stats are
`closure(R) = 50`, `closure(A) = 25`, `closure(B) = 20`, `closure(C) = 5`,
and `added_size(C) = 5`, not 0: the sibling-subtraction rule only subtracts
closures of the *node's own* siblings under its immediate parents, and C has
none. -/
theorem C2_scenario_amended :
    (calculate_stats scenarioGraph 5).bind
        (fun s => (hmLookup s pathR).map PathStats.closure_size) = some 50 ∧
      (calculate_stats scenarioGraph 5).bind
        (fun s => (hmLookup s pathA).map PathStats.closure_size) = some 25 ∧
      (calculate_stats scenarioGraph 5).bind
        (fun s => (hmLookup s pathB).map PathStats.closure_size) = some 20 ∧
      (calculate_stats scenarioGraph 5).bind
        (fun s => (hmLookup s pathC).map PathStats.closure_size) = some 5 ∧
      (calculate_stats scenarioGraph 5).bind
        (fun s => (hmLookup s pathC).map PathStats.added_size) = some 5 := by
  refine ⟨?_, ?_, ?_, ?_, ?_⟩ <;>
    (simp [calculate_stats, calculate_stats_base, statsBaseGo, calculate_added_sizes,
      addedSizesGo, calculate_closure, closureFold, uniqueClosure, sharedWithSiblings,
      calculate_closure_set, closureSetGo, pushRefs, closureUniverse,
      hmLookup, hmInsert, StorePathGraph.get_path, StorePathGraph.get_referrers,
      ownSize, scenarioGraph, spR, spA, spB, spC, pathR, pathA, pathB, pathC,
      List.find?, List.filter, Finset.sum]) <;> decide

/-- C5: the closure-size computation used by `calculate_stats`
(`calculate_closure`) does NOT terminate on cyclic input: on the self-loop
graph it returns no result at any recursion depth, because the cache is
only written after all recursive calls return, so the recursion meets an
unchanged cache at every depth.  `calculate_stats` therefore also diverges
there.  The iterative `calculate_closure_set`, by contrast, does carry an
explicit visited set and computes the closure `{X}` of the self-loop. -/
theorem C5_cycle_divergence :
    (∀ fuel, calculate_closure cycleGraph fuel pathX [] = none) ∧
      (∀ fuel, calculate_stats cycleGraph fuel = none) ∧
      calculate_closure_set cycleGraph pathX = {pathX} := by
  have h1 : ∀ fuel, calculate_closure cycleGraph fuel pathX [] = none := by
    intro fuel
    induction fuel with
    | zero => rw [calculate_closure]
    | succ fuel ih =>
      rw [calculate_closure]
      have hrefs : pushRefs cycleGraph pathX = [pathX] := by
        simp [pushRefs, StorePathGraph.get_path, cycleGraph, spLoop, List.find?]
      have hfold : closureFold cycleGraph fuel [pathX] {pathX} [] = none := by
        rw [closureFold.eq_def]
        simp [ih]
      rw [show hmLookup ([] : ClosureCache) pathX = none from rfl, hrefs, hfold]
  refine ⟨h1, ?_, ?_⟩
  · intro fuel
    unfold calculate_stats calculate_stats_base
    rw [show cycleGraph.paths = [spLoop] from rfl, statsBaseGo,
      show spLoop.path = pathX from rfl, h1 fuel]
  · simp [calculate_closure_set, closureSetGo, pushRefs, StorePathGraph.get_path,
      cycleGraph, spLoop, List.find?, closureUniverse]

/-- C1: whenever `calculate_stats` returns a stats table, the recorded
`closure_size` of any entry equals the sum of own sizes (`nar_size`, zero
for absent artifacts) over the exact set of distinct identifiers reachable
from it over reference edges, each unique artifact counted once.  In
particular a node with no outgoing references reaches only itself, so its
closure size is its own size. -/
theorem C1_closure_size_is_reachable_sum (g : StorePathGraph) (fuel : Nat)
    (stats : StatsMap) (p : String) (st : PathStats) (S : Finset String)
    (hstats : calculate_stats g fuel = some stats)
    (hlook : hmLookup stats p = some st)
    (hS : ∀ q, q ∈ S ↔ Reaches g p q) :
    st.closure_size = S.sum (ownSize g) := by
  unfold calculate_stats at hstats
  cases hbase : calculate_stats_base g fuel with
  | none =>
    rw [hbase] at hstats
    simp at hstats
  | some base =>
    rw [hbase] at hstats
    unfold calculate_added_sizes at hstats
    obtain ⟨st0, hlook0, hcs, _⟩ :=
      addedSizesGo_lookup g g.paths base stats hstats p st hlook
    have hbc := (calculate_stats_base_closure_size g fuel base hbase p st0 hlook0).1
    rw [hcs, hbc, reachSum, closure_eq_closure_set hS]

theorem oneNode_base_eval :
    calculate_stats_base oneNodeGraph 2
      = some [(pathN, ⟨7, 0, []⟩)] := by
  simp [calculate_stats_base, statsBaseGo, calculate_closure, closureFold,
    pushRefs, hmLookup, hmInsert, StorePathGraph.get_path,
    StorePathGraph.get_referrers, ownSize, oneNodeGraph, spN, pathN,
    List.find?, List.filter, Finset.sum]

theorem oneNode_stats_eval :
    calculate_stats oneNodeGraph 2
      = some [(pathN, ⟨7, 7, []⟩)] := by
  rw [calculate_stats, oneNode_base_eval]
  simp [calculate_added_sizes, addedSizesGo, uniqueClosure, sharedWithSiblings,
    calculate_closure_set, closureSetGo, pushRefs, closureUniverse, hmLookup,
    hmInsert, StorePathGraph.get_path, ownSize, oneNodeGraph, spN, pathN,
    List.find?, List.filter, Finset.sum]

/-- C1 witness: on the one-node graph ("N", size 7, no references) the
computed closure size 7 equals the sum over its reachable set. -/
theorem C1_witness :
    (⟨7, 7, []⟩ : PathStats).closure_size =
      (calculate_closure_set oneNodeGraph pathN).sum (ownSize oneNodeGraph) :=
  C1_closure_size_is_reachable_sum oneNodeGraph 2 [(pathN, ⟨7, 7, []⟩)]
    pathN ⟨7, 7, []⟩ (calculate_closure_set oneNodeGraph pathN)
    oneNode_stats_eval (by decide)
    (fun q => mem_calculate_closure_set oneNodeGraph pathN q)

/-- C4: every entry the stats pipeline writes satisfies
`0 ≤ added_size ≤ closure_size`: the added size sums own sizes over a
subset (`unique_closure` minus the sibling closures) of the node's
reachable set, whose own-size sum is the recorded closure size. -/
theorem C4_added_size_bounds (g : StorePathGraph) (fuel : Nat)
    (stats : StatsMap) (p : String) (st : PathStats)
    (hstats : calculate_stats g fuel = some stats)
    (hlook : hmLookup stats p = some st) :
    0 ≤ st.added_size ∧ st.added_size ≤ st.closure_size := by
  refine ⟨Nat.zero_le _, ?_⟩
  unfold calculate_stats at hstats
  cases hbase : calculate_stats_base g fuel with
  | none =>
    rw [hbase] at hstats
    simp at hstats
  | some base =>
    rw [hbase] at hstats
    unfold calculate_added_sizes at hstats
    refine addedSizesGo_bound g g.paths base stats
      (fun sp hsp => get_path_of_mem hsp) ?_ ?_ hstats p st hlook
    · intro p' st' h
      exact (calculate_stats_base_closure_size g fuel base hbase p' st' h).1
    · intro p' st' h
      rw [(calculate_stats_base_closure_size g fuel base hbase p' st' h).2.1]
      exact Nat.zero_le _

/-- C4 witness: the bound at the one-node graph's single entry. -/
theorem C4_witness :
    0 ≤ (⟨7, 7, []⟩ : PathStats).added_size ∧
      (⟨7, 7, []⟩ : PathStats).added_size ≤ (⟨7, 7, []⟩ : PathStats).closure_size :=
  C4_added_size_bounds oneNodeGraph 2 [(pathN, ⟨7, 7, []⟩)] pathN ⟨7, 7, []⟩
    oneNode_stats_eval (by decide)

/-- C10: the first pass of `calculate_stats` inserts one stats entry per
stored path before `calculate_added_sizes` runs, so the table's key set is
exactly the graph's path set and the `stats.get(&path.path).unwrap()`
inside `calculate_added_sizes` (modelled by the `none` branch) can never
fail: the second pass always returns a table. -/
theorem C10_stats_keys_total (g : StorePathGraph) (fuel : Nat) (stats : StatsMap)
    (hbase : calculate_stats_base g fuel = some stats) :
    (∀ p, (hmLookup stats p).isSome ↔ p ∈ g.paths.map StorePath.path) ∧
      (calculate_added_sizes stats g).isSome := by
  refine ⟨calculate_stats_base_keys g fuel stats hbase, ?_⟩
  unfold calculate_added_sizes
  apply addedSizesGo_isSome
  intro sp hsp
  rw [Option.isSome_iff_exists]
  have := (calculate_stats_base_keys g fuel stats hbase sp.path).mpr
    (List.mem_map_of_mem StorePath.path hsp)
  rw [Option.isSome_iff_exists] at this
  exact this

/-- C10 witness: the key-set equality and the totality of the second pass on
the one-node graph's base table. -/
theorem C10_witness :
    (∀ p, (hmLookup [(pathN, (⟨7, 0, []⟩ : PathStats))] p).isSome ↔
      p ∈ oneNodeGraph.paths.map StorePath.path) ∧
      (calculate_added_sizes [(pathN, ⟨7, 0, []⟩)] oneNodeGraph).isSome :=
  C10_stats_keys_total oneNodeGraph 2 [(pathN, ⟨7, 0, []⟩)] oneNode_base_eval

/-- C9: sorting with the `Alphabetical` comparator is idempotent, and
sorting with the `ClosureSize` comparator yields a sequence whose closure
sizes (missing stats entries counted as zero) are non-increasing. -/
theorem C9_sort_properties (stats : StatsMap) (l : List String) :
    sort_paths (sort_paths l stats SortOrder.Alphabetical) stats SortOrder.Alphabetical
        = sort_paths l stats SortOrder.Alphabetical ∧
      (sort_paths l stats SortOrder.ClosureSize).Pairwise
        (fun a b => statClosureSize stats b ≤ statClosureSize stats a) := by
  constructor
  · apply List.mergeSort_of_sorted
    apply List.sorted_mergeSort
    · intro a b c hab hbc
      simp only [sortLE, decide_eq_true_eq] at hab hbc ⊢
      exact le_trans hab hbc
    · intro a b
      simp only [sortLE, Bool.or_eq_true, decide_eq_true_eq]
      exact le_total a b
  · have htrans : ∀ a b c, sortLE stats SortOrder.ClosureSize a b = true →
        sortLE stats SortOrder.ClosureSize b c = true →
        sortLE stats SortOrder.ClosureSize a c = true := by
      intro a b c hab hbc
      simp only [sortLE, decide_eq_true_eq] at hab hbc ⊢
      exact le_trans hbc hab
    have htotal : ∀ a b, (sortLE stats SortOrder.ClosureSize a b ||
        sortLE stats SortOrder.ClosureSize b a) = true := by
      intro a b
      simp only [sortLE, Bool.or_eq_true, decide_eq_true_eq]
      exact le_total _ _
    have hp := List.sorted_mergeSort htrans htotal l
    exact hp.imp (fun h => by simpa [sortLE] using h)

/-! ## Navigator fixtures -/

def emptyGraph : StorePathGraph := ⟨[], [], List.Pairwise.nil⟩

/-- A Browsing-state app template: Current pane focused, no modal, empty
lists. -/
def baseApp : App :=
  { graph := emptyGraph, stats := [], sort_order := .Alphabetical,
    active_pane := .Current, show_help := false, searching := false,
    search_query := [], previous_state := none, current_state := none,
    next_state := none, previous_items := [], current_items := [],
    next_items := [], current_path := none }

/-- Browsing at `[R]` with cursor 0 and a non-empty next pane. -/
def appDescend : App :=
  { baseApp with current_items := [pathR], current_state := some 0,
                 next_items := [pathA], current_path := some pathR }

/-- Browsing with the help overlay open. -/
def appHelp : App := { baseApp with show_help := true }

/-- Searching with a non-empty buffer. -/
def appSearching : App := { baseApp with searching := true, search_query := ['a'] }

/-- A query matching no display name of the one-node graph ("alpha"). -/
def appNoMatch : App := { baseApp with graph := oneNodeGraph, search_query := ['z'] }

/-- A query matching the one-node graph's display name ("alpha"). -/
def appMatch : App := { baseApp with graph := oneNodeGraph, search_query := ['p'] }

def pathP : String := "P"

def pathK : String := "K"

def spPar : StorePath := ⟨pathP, "hP", "nP", 10, none, [pathK], []⟩

def spKid : StorePath := ⟨pathK, "hK", "nK", 5, none, [], []⟩

def twoNodeGraph : StorePathGraph := ⟨[spPar, spKid], [pathP], by decide⟩

def stats8 : StatsMap := [(pathK, ⟨5, 5, [pathP]⟩)]

/-- Browsing the two-node graph at the child, whose parent list is
non-empty. -/
def appPanes : App :=
  { baseApp with graph := twoNodeGraph, stats := stats8,
                 current_items := [pathK], current_state := some 0 }

/-- C3 (counterexample): descend (right/enter) does not replace
`current_items` with `next_items`: from a Browsing state with
`current_items = [R]` and `next_items = [A]`, after the right key the
current list is still `[R]`.  There is no history stack in the state at
all; the right key only moves the pane focus. -/
theorem C3_descend_counterexample :
    ¬ ((appDescend.handle_key KeyCode.Right).1.current_items
        = appDescend.next_items) := by
  decide

/-- C3 (amended): in a Browsing state (not searching) focused on the
Current pane with a selection and non-empty `next_items`, descend
(right/enter) moves the focus to the Next pane and leaves `current_items`
unchanged (there is no history stack to push onto), and back (left) moves
the focus back to the Current pane; descend followed by back therefore
leaves `current_items`, the current cursor and the recorded selected
identifier exactly as they were. -/
theorem C3_descend_then_back (a : App) (i : Nat)
    (hsearch : a.searching = false)
    (hpane : a.active_pane = Pane.Current)
    (hsel : a.current_state = some i)
    (hnext : a.next_items ≠ []) :
    (a.handle_key KeyCode.Right).1.current_items = a.current_items ∧
      (a.handle_key KeyCode.Right).1.active_pane = Pane.Next ∧
      ((a.handle_key KeyCode.Right).1.handle_key KeyCode.Left).1.active_pane
        = Pane.Current ∧
      ((a.handle_key KeyCode.Right).1.handle_key KeyCode.Left).1.current_items
        = a.current_items ∧
      ((a.handle_key KeyCode.Right).1.handle_key KeyCode.Left).1.current_state
        = a.current_state ∧
      ((a.handle_key KeyCode.Right).1.handle_key KeyCode.Left).1.current_path
        = a.current_path := by
  cases hns : a.next_state <;>
    simp [App.handle_key, App.handle_browse_key, hsearch, App.move_right, hpane,
      hsel, hnext, hns, App.move_left, Pane.previous]

/-- C3 witness: the round trip at the concrete Browsing state `appDescend`. -/
theorem C3_witness :
    (appDescend.handle_key KeyCode.Right).1.current_items
        = appDescend.current_items ∧
      (appDescend.handle_key KeyCode.Right).1.active_pane = Pane.Next ∧
      ((appDescend.handle_key KeyCode.Right).1.handle_key KeyCode.Left).1.active_pane
        = Pane.Current ∧
      ((appDescend.handle_key KeyCode.Right).1.handle_key KeyCode.Left).1.current_items
        = appDescend.current_items ∧
      ((appDescend.handle_key KeyCode.Right).1.handle_key KeyCode.Left).1.current_state
        = appDescend.current_state ∧
      ((appDescend.handle_key KeyCode.Right).1.handle_key KeyCode.Left).1.current_path
        = appDescend.current_path :=
  C3_descend_then_back appDescend 0 rfl rfl rfl (by decide)

/-- C6 (counterexample): with the help overlay open (and not searching),
pressing `q` quits and the overlay stays open, instead of closing the help
first; and in the Searching state, `q` does not cancel the search (it is
appended to the buffer). -/
theorem C6_modal_counterexample :
    ((appHelp.handle_key (KeyCode.Char 'q')).2 = true ∧
        (appHelp.handle_key (KeyCode.Char 'q')).1.show_help = true) ∧
      (appSearching.handle_key (KeyCode.Char 'q')).1.searching = true := by
  decide

/-- C6 (amended): only the Searching state takes priority over quitting,
and only for Esc: while searching, Esc cancels the search (clearing the
buffer) and `q` is appended to the buffer; outside the Searching state,
`q` or Esc quits immediately, whether or not the help overlay is open. -/
theorem C6_key_priorities (a : App) :
    (a.searching = true →
      a.handle_key KeyCode.Esc
          = ({ a with searching := false, search_query := [] }, false) ∧
        a.handle_key (KeyCode.Char 'q')
          = ({ a with search_query := a.search_query ++ ['q'] }, false)) ∧
      (a.searching = false →
        a.handle_key (KeyCode.Char 'q') = (a, true) ∧
          a.handle_key KeyCode.Esc = (a, true)) := by
  constructor
  · intro hs
    constructor <;> simp [App.handle_key, App.handle_search_key, hs]
  · intro hs
    constructor <;> simp [App.handle_key, App.handle_browse_key, hs]

/-- C6 witness: Esc cancels at the concrete Searching state, and `q` quits
with the help overlay open. -/
theorem C6_witness :
    appSearching.handle_key KeyCode.Esc
        = ({ appSearching with searching := false, search_query := [] }, false) ∧
      appHelp.handle_key (KeyCode.Char 'q') = (appHelp, true) :=
  ⟨((C6_key_priorities appSearching).1 rfl).1,
   ((C6_key_priorities appHelp).2 rfl).1⟩

/-- C7: search submission is a no-op on an empty buffer; with no matching
display name (case-insensitive substring over the whole graph,
`searchMatches`) the state is left entirely unchanged (current list, cursor
and everything else); with a non-empty match set, `current_items` becomes
the matches sorted by the active order, the cursor is reset to 0 and the
Current pane is focused with panes refreshed. -/
theorem C7_search_execution (a : App) :
    (a.search_query = [] → a.perform_search = a) ∧
      (a.searchMatches = [] → a.perform_search = a) ∧
      (a.search_query ≠ [] → a.searchMatches ≠ [] →
        a.perform_search.current_items
            = sort_paths a.searchMatches a.stats a.sort_order ∧
          a.perform_search.current_state = some 0 ∧
          a.perform_search.active_pane = Pane.Current) := by
  refine ⟨?_, ?_, ?_⟩
  · intro h
    simp [App.perform_search, h]
  · intro h
    by_cases hq : a.search_query = []
    · simp [App.perform_search, hq]
    · simp [App.perform_search, hq, h]
  · intro hq hm
    have hsorted : sort_paths a.searchMatches a.stats a.sort_order ≠ [] := by
      intro hcontra
      apply hm
      have hperm := List.mergeSort_perm a.searchMatches (sortLE a.stats a.sort_order)
      rw [sort_paths] at hcontra
      rw [hcontra] at hperm
      exact (List.Perm.nil_eq hperm).symm
    cases hsl : sort_paths a.searchMatches a.stats a.sort_order with
    | nil => exact absurd hsl hsorted
    | cons y ys =>
      refine ⟨?_, ?_, ?_⟩ <;>
        simp [App.perform_search, hq, hm, App.update_panes, hsl]

/-- C7 witness: the three branches at concrete states: empty buffer,
no-match query `z`, and matching query `p` over the display name
`alpha`. -/
theorem C7_witness :
    baseApp.perform_search = baseApp ∧
      appNoMatch.perform_search = appNoMatch ∧
      (appMatch.perform_search.current_items
          = sort_paths appMatch.searchMatches appMatch.stats appMatch.sort_order ∧
        appMatch.perform_search.current_state = some 0 ∧
        appMatch.perform_search.active_pane = Pane.Current) :=
  ⟨(C7_search_execution baseApp).1 rfl,
   (C7_search_execution appNoMatch).2.1 (by decide),
   (C7_search_execution appMatch).2.2 (by decide) (by decide)⟩

/-- C8 (counterexample): after a pane refresh at the concrete state
`appPanes`, the previous pane's list is non-empty (the child's parent) and
yet its cursor is NOT reset to 0: both side-pane `ListState`s are reset to
default, which has no selection. -/
theorem C8_side_cursor_counterexample :
    appPanes.update_panes.previous_items ≠ [] ∧
      appPanes.update_panes.previous_state ≠ some 0 := by
  constructor <;>
    simp [App.update_panes, appPanes, baseApp, twoNodeGraph, spPar, spKid,
      pathP, pathK, stats8, hmLookup, List.find?, sort_paths,
      List.mergeSort_singleton, StorePathGraph.get_references,
      StorePathGraph.get_path]

/-- C8 (amended): after a pane refresh with the Current pane focused and an
identifier selected, `previous_items` is the node's `immediate_parents`
from the stats table sorted by the active order, `next_items` is the node's
resolved direct references sorted by the active order, the selected
identifier is recorded, and both side-pane cursors are unset — they are
reset to the default (no selection) regardless of whether the lists are
empty. -/
theorem C8_refresh_pane_contents (a : App) (i : Nat) (path : String)
    (hpane : a.active_pane = Pane.Current)
    (hsel : a.current_state = some i)
    (hget : a.current_items[i]? = some path) :
    a.update_panes.previous_items
        = sort_paths
          (match hmLookup a.stats path with
           | some st => st.immediate_parents
           | none => []) a.stats a.sort_order ∧
      a.update_panes.next_items
        = sort_paths ((a.graph.get_references path).map StorePath.path)
            a.stats a.sort_order ∧
      a.update_panes.previous_state = none ∧
      a.update_panes.next_state = none ∧
      a.update_panes.current_path = some path := by
  refine ⟨?_, ?_, ?_, ?_, ?_⟩ <;> simp [App.update_panes, hpane, hsel, hget]

/-- C8 witness: the refreshed pane contents at the concrete state
`appPanes` with the child selected. -/
theorem C8_witness :
    appPanes.update_panes.previous_items
        = sort_paths
          (match hmLookup appPanes.stats pathK with
           | some st => st.immediate_parents
           | none => []) appPanes.stats appPanes.sort_order ∧
      appPanes.update_panes.next_items
        = sort_paths ((appPanes.graph.get_references pathK).map StorePath.path)
            appPanes.stats appPanes.sort_order ∧
      appPanes.update_panes.previous_state = none ∧
      appPanes.update_panes.next_state = none ∧
      appPanes.update_panes.current_path = some pathK :=
  C8_refresh_pane_contents appPanes 0 pathK rfl rfl rfl

end NixTree
